import Mathlib

/-!
# Verification of the x-cleaners healing combinators

A shallow embedding of the healing validators from the `x-cleaners`
repository: `asHealingObject` (open key-value mode and closed shape mode),
`asHealingArray` (both the single-argument implementation and the
generalized implementation with an optional per-index fallback list), and
`asHealingTuple`.

Dynamic JavaScript values are modelled by the inductive type `JSVal`;
JavaScript objects are insertion-ordered association lists
(`List (String × JSVal)`); property enumeration (`Object.keys`) is modelled
as insertion order.  A cleaner (the `Cleaner<T>` type of the external
`cleaners` package) is a function `JSVal → Except String JSVal`: `.ok` is a
normal return, `.error` models a thrown validation error, and `try/catch`
in the source becomes a `match` on the result.
-/

/-- A dynamically-typed JavaScript value: `null`, `undefined`, booleans,
numbers, strings, arrays and plain objects (insertion-ordered string-keyed
field lists). -/
inductive JSVal : Type where
  | null : JSVal
  | undef : JSVal
  | bool : Bool → JSVal
  | num : Int → JSVal
  | str : String → JSVal
  | arr : List JSVal → JSVal
  | obj : List (String × JSVal) → JSVal
deriving Repr

/-- The field list of a JavaScript object. -/
abbrev JSObj := List (String × JSVal)

/-- A cleaner in the sense of the `cleaners` package: it either returns a
cleaned value or throws a validation error (modelled as `Except.error`). -/
abbrev Cleaner := JSVal → Except String JSVal

/-- The JavaScript `typeof` operator restricted to the values of `JSVal`
(note `typeof null = "object"` and arrays are objects). -/
def typeofStr : JSVal → String
  | .null => "object"
  | .undef => "undefined"
  | .bool _ => "boolean"
  | .num _ => "number"
  | .str _ => "string"
  | .arr _ => "object"
  | .obj _ => "object"

/-- JavaScript loose equality against `null` (`x == null`): true exactly for
`null` and `undefined`. -/
def looseEqNull : JSVal → Bool
  | .null => true
  | .undef => true
  | _ => false

/-- `Array.isArray`. -/
def isArray : JSVal → Bool
  | .arr _ => true
  | _ => false

/-- Property lookup on a field list: the value of the first field named `k`,
or JavaScript `undefined` when the property is missing. -/
def jget : JSObj → String → JSVal
  | [], _ => .undef
  | p :: rest, k => if p.1 = k then p.2 else jget rest k

/-- JavaScript property assignment `o[k] = v` on a plain object: overwrite
the existing field in place, or append a fresh field at the end. -/
def setKey : JSObj → String → JSVal → JSObj
  | [], k, v => [(k, v)]
  | p :: rest, k, v => if p.1 = k then (k, v) :: rest else p :: setKey rest k v

/-- The own keys of a field list in insertion order.  This abstracts the
enumeration order of `Object.keys`: real JavaScript enumerates array-index
keys first in ascending numeric order (see `jsEnumKeys`), which agrees with
insertion order on key membership and per-key values but not on the order
itself. -/
def objKeys (o : JSObj) : List String :=
  o.map Prod.fst

/-- Object spread `{ ...a, ...b }`: copy the fields of `b` over `a` by
assignment, preserving the positions of keys already present.  The field
list keeps insertion order; the enumeration order of the resulting object
is `jsEnumKeys` of this list. -/
def spread (a b : JSObj) : JSObj :=
  b.foldl (fun acc p => setKey acc p.1 p.2) a

/-- The own enumerable properties of a value, as seen by `Object.keys`,
property access and spread: an object contributes its fields, an array its
index/element pairs, and anything else none. -/
def fieldsOf : JSVal → JSObj
  | .obj fs => fs
  | .arr xs => xs.enum.map (fun p => (toString p.1, p.2))
  | _ => []

/-- The element list of an array value. -/
def elemsOf : JSVal → List JSVal
  | .arr xs => xs
  | _ => []

/-- Optional-chained property read `fallback?.[key]`: `undefined` when the
fallback object is absent. -/
def optGet (fallback : Option JSObj) (k : String) : JSVal :=
  match fallback with
  | none => .undef
  | some fb => jget fb k

/-- Optional-chained index read `fallback?.[i]`: `undefined` when the
fallback list is absent or the index is out of range. -/
def optIndex (fallback : Option (List JSVal)) (i : Nat) : JSVal :=
  match fallback with
  | none => .undef
  | some fb => fb.getD i JSVal.undef

/-- Modelled from the spec: the value produced by the external base
toolkit's maybe combinator (§4.1, §6) — `validate(raw)` when that succeeds,
otherwise the fallback value. -/
def asMaybeVal (cleaner : Cleaner) (fallback : JSVal) (raw : JSVal) : JSVal :=
  match cleaner raw with
  | .ok v => v
  | .error _ => fallback

/-- Modelled from the spec: the external `asMaybe` combinator of the base
toolkit (§6) — a cleaner that substitutes the fallback on failure and hence
never fails itself. -/
def asMaybe (cleaner : Cleaner) (fallback : JSVal) : Cleaner :=
  fun raw => .ok (asMaybeVal cleaner fallback raw)

/-- Option-valued property lookup on a field list: the value of the first
field named `k`, when one exists. -/
def objLookup : JSObj → String → Option JSVal
  | [], _ => none
  | p :: rest, k => if p.1 = k then some p.2 else objLookup rest k

/-- One iteration of the key loop of open-mode `asHealingObject`
(part_000 lines 117-127): skip the reserved `__proto__` key; with no usable
(non-null) fallback entry, try the cleaner and drop the key on failure;
with a usable fallback entry, assign the fallback-guarded value. -/
def healStep (shape : Cleaner) (fallback : Option JSObj) (rawF : JSObj)
    (out : JSObj) (key : String) : JSObj :=
  if key == "__proto__" then out
  else if looseEqNull (optGet fallback key) then
    match shape (jget rawF key) with
    | .ok v => setKey out key v
    | .error _ => out
  else setKey out key (asMaybeVal shape (optGet fallback key) (jget rawF key))

/-- The key list iterated by open-mode `asHealingObject`:
`Object.keys(raw)` without a fallback map, `Object.keys({...raw, ...fallback})`
with one. -/
def enumKeys (fallback : Option JSObj) (rawF : JSObj) : List String :=
  match fallback with
  | none => objKeys rawF
  | some fb => objKeys (spread rawF fb)

/-- The cleaner returned by open-mode `asHealingObject` (part_000
lines 108-129, part_001 lines 112-135): non-object or null input yields an
empty object; otherwise every enumerated key is healed by `healStep`. -/
def asMaybeObject (shape : Cleaner) (fallback : Option JSObj) : Cleaner :=
  fun raw =>
    if typeofStr raw != "object" || looseEqNull raw then .ok (.obj [])
    else
      .ok (.obj ((enumKeys fallback (fieldsOf raw)).foldl
        (healStep shape fallback (fieldsOf raw)) []))

/-- Modelled from the spec: the field loop of the external record validator
`asObject` (§6) — validate each declared field of the shape against the raw
object's property of the same name, failing if any field cleaner fails. -/
def cleanShapeFields : List (String × Cleaner) → JSObj → Except String JSObj
  | [], _ => .ok []
  | (k, c) :: rest, rawF =>
    match c (jget rawF k) with
    | .error e => .error e
    | .ok v =>
      match cleanShapeFields rest rawF with
      | .error e => .error e
      | .ok tail => .ok ((k, v) :: tail)

/-- Modelled from the spec: the external record validator `asObject` of the
base toolkit (§6) — throws on null or non-object input, otherwise returns
exactly the declared fields, in declaration order, ignoring extra input
fields. -/
def asObject (shape : List (String × Cleaner)) : Cleaner :=
  fun raw =>
    if looseEqNull raw || typeofStr raw != "object" then
      .error ("Expected an object")
    else
      match cleanShapeFields shape (fieldsOf raw) with
      | .error e => .error e
      | .ok fs => .ok (.obj fs)

/-- The guarded shape built by closed-mode `asHealingObject` (part_000
lines 132-135): each field cleaner wrapped in `asMaybe` with the matching
fallback property. -/
def safeShapeOf (shape : List (String × Cleaner)) (fallback : JSObj) :
    List (String × Cleaner) :=
  shape.map (fun p => (p.1, asMaybe p.2 (jget fallback p.1)))

/-- Closed-mode `asHealingObject` (part_000 line 136): the record validator
over the guarded shape, itself guarded with the whole fallback record. -/
def asHealingObjectShape (shape : List (String × Cleaner)) (fallback : JSObj) :
    Cleaner :=
  asMaybe (asObject (safeShapeOf shape fallback)) (.obj fallback)

/-- The contribution of index `i` in the loop of the generalized
`asHealingArray` (part_000 lines 188-196): with no usable (non-null)
fallback entry at `i`, the cleaned element on success and nothing on
failure; with a usable entry, the fallback-guarded value. -/
def arrayStep (cleaner : Cleaner) (fallback : Option (List JSVal))
    (xs : List JSVal) (i : Nat) : Option JSVal :=
  if looseEqNull (optIndex fallback i) then
    match cleaner (xs.getD i .undef) with
    | .ok v => some v
    | .error _ => none
  else some (asMaybeVal cleaner (optIndex fallback i) (xs.getD i .undef))

/-- The cleaner returned by the generalized `asHealingArray` (part_000
lines 183-198): non-array input yields an empty array; otherwise indices
`0 .. max(len(raw), len(fallback)) - 1` are healed by `arrayStep`, dropped
contributions compacting the output in iteration order. -/
def asMaybeArray (cleaner : Cleaner) (fallback : Option (List JSVal)) : Cleaner :=
  fun raw =>
    if !isArray raw then .ok (.arr [])
    else
      .ok (.arr ((List.range
        (max (elemsOf raw).length
          (match fallback with | none => 0 | some fb => fb.length))).filterMap
        (arrayStep cleaner fallback (elemsOf raw))))

/-- The cleaner returned by the single-argument `asHealingArray`
(part_001 lines 27-37): a `for-of` loop pushing each cleaned element and
silently dropping failures. -/
def asHealingArrayCleaner (cleaner : Cleaner) : Cleaner :=
  fun raw =>
    if !isArray raw then .ok (.arr [])
    else
      .ok (.arr ((elemsOf raw).filterMap (fun item =>
        match cleaner item with
        | .ok v => some v
        | .error _ => none)))

/-- The cleaner returned by `asHealingTuple`
(src/cleaners/asHealingTuple.ts lines 43-54): non-array input yields a copy
of the fallback template; otherwise each template index is healed with the
fallback-guarded cleaner, fixing the output length to the template length. -/
def asMaybeTuple (cleaner : Cleaner) (fallback : List JSVal) : Cleaner :=
  fun raw =>
    if !isArray raw then .ok (.arr fallback)
    else
      .ok (.arr ((List.range fallback.length).map (fun i =>
        asMaybeVal cleaner (fallback.getD i .undef)
          ((elemsOf raw).getD i .undef))))

/-- The action open-mode `asHealingObject` takes at one key: `none` when
the key is skipped or dropped, `some v` when the value `v` is assigned. -/
def healAct (shape : Cleaner) (fallback : Option JSObj) (rawF : JSObj)
    (key : String) : Option JSVal :=
  if key == "__proto__" then none
  else if looseEqNull (optGet fallback key) then
    match shape (jget rawF key) with
    | .ok v => some v
    | .error _ => none
  else some (asMaybeVal shape (optGet fallback key) (jget rawF key))

/-- A sample element cleaner for concrete instances: accepts numbers
unchanged and rejects everything else (the shape of `asNumber` restricted
to values that are already numbers). -/
def asNumT : Cleaner :=
  fun v =>
    match v with
    | .num n => .ok (.num n)
    | _ => .error ("Expected a number")

/-- A sample element cleaner that rewrites the number `5` to `0`, keeps
`0`, and rejects everything else; it maps each of its own outputs to
itself. -/
def fiveToZero : Cleaner :=
  fun v =>
    match v with
    | .num 5 => .ok (.num 0)
    | .num 0 => .ok (.num 0)
    | _ => .error ("Expected the number 0 or 5")

/-- Numeric comparison of two equal-length canonical digit strings by
lexicographic comparison of their characters (on canonical decimal strings
of the same length, lexicographic order is numeric order). -/
def digitStringLt : List Char → List Char → Bool
  | [], [] => false
  | [], _ :: _ => true
  | _ :: _, [] => false
  | a :: as, b :: bs =>
    if a.toNat = b.toNat then digitStringLt as bs
    else decide (a.toNat < b.toNat)

/-- Whether a property key is an ECMAScript array index: the canonical
decimal representation (no leading zero except `"0"` itself) of an integer
below `2^32 - 1`.  Such keys enumerate before all other own keys. -/
def isArrayIndexKey (k : String) : Bool :=
  !(k.data.isEmpty) && k.data.all (fun c => c.isDigit) &&
    (k == "0" || k.data.headD '0' != '0') &&
    (decide (k.data.length < 10) ||
      (decide (k.data.length = 10) && digitStringLt k.data ("4294967295").data))

/-- Numeric order on canonical array-index keys: shorter strings first,
equal lengths lexicographically. -/
def idxLt (a b : String) : Bool :=
  decide (a.data.length < b.data.length) ||
    (decide (a.data.length = b.data.length) && digitStringLt a.data b.data)

/-- Insert an array-index key into a numerically ascending list of keys. -/
def insertIdx (k : String) : List String → List String
  | [] => [k]
  | m :: rest => if idxLt m k then m :: insertIdx k rest else k :: m :: rest

/-- Sort array-index keys into ascending numeric order. -/
def sortIdx (l : List String) : List String :=
  l.foldr insertIdx []

/-- The true enumeration order of `Object.keys` per ECMAScript
OrdinaryOwnPropertyKeys: array-index keys first in ascending numeric order,
then the remaining string keys in insertion order.  The combinator model
uses the insertion-order abstraction `objKeys`; `jsEnumKeys` is the faithful
order of the source's key loop. -/
def jsEnumKeys (o : JSObj) : List String :=
  sortIdx ((objKeys o).filter (fun k => isArrayIndexKey k)) ++
    (objKeys o).filter (fun k => !(isArrayIndexKey k))

/-! ## Association-list lemmas -/

theorem objKeys_nil : objKeys [] = [] := rfl

theorem objKeys_cons (p : String × JSVal) (o : JSObj) :
    objKeys (p :: o) = p.1 :: objKeys o := rfl

theorem objKeys_append (a b : JSObj) : objKeys (a ++ b) = objKeys a ++ objKeys b :=
  List.map_append Prod.fst a b

theorem jget_eq_objLookup (o : JSObj) (k : String) :
    jget o k = (objLookup o k).getD .undef := by
  induction o with
  | nil => rfl
  | cons p rest ih =>
    by_cases hp : p.1 = k <;> simp [jget, objLookup, hp, ih]

theorem objLookup_eq_none (o : JSObj) (k : String) (h : k ∉ objKeys o) :
    objLookup o k = none := by
  induction o with
  | nil => rfl
  | cons p rest ih =>
    simp only [objKeys, List.map_cons, List.mem_cons, not_or] at h
    have hp : p.1 ≠ k := Ne.symm h.1
    rw [objLookup, if_neg hp]
    exact ih h.2

theorem objLookup_isSome (o : JSObj) (k : String) (h : k ∈ objKeys o) :
    (objLookup o k).isSome = true := by
  induction o with
  | nil => simp [objKeys] at h
  | cons p rest ih =>
    by_cases hp : p.1 = k
    · simp [objLookup, hp]
    · simp only [objKeys, List.map_cons, List.mem_cons] at h
      rcases h with h | h
      · exact absurd h.symm hp
      · simpa [objLookup, hp] using ih h

theorem mem_objKeys_of_lookup (o : JSObj) (k : String) (v : JSVal)
    (h : objLookup o k = some v) : k ∈ objKeys o := by
  by_contra hc
  rw [objLookup_eq_none o k hc] at h
  exact Option.noConfusion h

theorem objKeys_setKey_of_mem (o : JSObj) (k : String) (v : JSVal)
    (h : k ∈ objKeys o) : objKeys (setKey o k v) = objKeys o := by
  induction o with
  | nil => simp [objKeys] at h
  | cons p rest ih =>
    by_cases hp : p.1 = k
    · simp [setKey, hp, objKeys]
    · simp only [objKeys, List.map_cons, List.mem_cons] at h
      rcases h with h | h
      · exact absurd h.symm hp
      · simp [setKey, hp, objKeys_cons, ih h]

theorem setKey_of_not_mem (o : JSObj) (k : String) (v : JSVal)
    (h : k ∉ objKeys o) : setKey o k v = o ++ [(k, v)] := by
  induction o with
  | nil => rfl
  | cons p rest ih =>
    simp only [objKeys, List.map_cons, List.mem_cons, not_or] at h
    have hp : p.1 ≠ k := Ne.symm h.1
    rw [setKey, if_neg hp, ih h.2]
    rfl

theorem objKeys_setKey_of_not_mem (o : JSObj) (k : String) (v : JSVal)
    (h : k ∉ objKeys o) : objKeys (setKey o k v) = objKeys o ++ [k] := by
  rw [setKey_of_not_mem o k v h, objKeys_append]
  rfl

theorem objLookup_setKey_self (o : JSObj) (k : String) (v : JSVal) :
    objLookup (setKey o k v) k = some v := by
  induction o with
  | nil => simp [setKey, objLookup]
  | cons p rest ih =>
    by_cases hp : p.1 = k
    · simp [setKey, hp, objLookup]
    · simp [setKey, hp, objLookup, ih]

theorem objLookup_setKey_ne (o : JSObj) (k k' : String) (v : JSVal)
    (h : k' ≠ k) : objLookup (setKey o k v) k' = objLookup o k' := by
  have h' : k ≠ k' := Ne.symm h
  induction o with
  | nil => simp [setKey, objLookup, h']
  | cons p rest ih =>
    by_cases hp : p.1 = k
    · rw [setKey, if_pos hp, objLookup, if_neg h', objLookup, if_neg]
      rw [hp]
      exact h'
    · by_cases hp' : p.1 = k'
      · simp [setKey, hp, objLookup, hp', h]
      · simp [setKey, hp, objLookup, hp', ih]

theorem nodup_objKeys_setKey (o : JSObj) (k : String) (v : JSVal)
    (h : (objKeys o).Nodup) : (objKeys (setKey o k v)).Nodup := by
  by_cases hm : k ∈ objKeys o
  · rw [objKeys_setKey_of_mem o k v hm]
    exact h
  · rw [objKeys_setKey_of_not_mem o k v hm]
    simpa [List.nodup_append] using ⟨h, hm⟩

/-! ## The key loop of open-mode asHealingObject -/

theorem healStep_eq_none (shape : Cleaner) (fbo : Option JSObj) (rawF out : JSObj)
    (key : String) (h : healAct shape fbo rawF key = none) :
    healStep shape fbo rawF out key = out := by
  unfold healStep
  unfold healAct at h
  by_cases h1 : key == "__proto__"
  · simp [h1]
  · simp only [h1, Bool.false_eq_true, if_false] at h ⊢
    by_cases h2 : looseEqNull (optGet fbo key) = true
    · simp only [h2, if_true] at h ⊢
      cases hs : shape (jget rawF key) <;> simp [hs] at h ⊢
    · simp only [Bool.not_eq_true] at h2
      simp [h2] at h

theorem healStep_eq_some (shape : Cleaner) (fbo : Option JSObj) (rawF out : JSObj)
    (key : String) (v : JSVal) (h : healAct shape fbo rawF key = some v) :
    healStep shape fbo rawF out key = setKey out key v := by
  unfold healStep
  unfold healAct at h
  by_cases h1 : key == "__proto__"
  · simp [h1] at h
  · simp only [h1, Bool.false_eq_true, if_false] at h ⊢
    by_cases h2 : looseEqNull (optGet fbo key) = true
    · simp only [h2, if_true] at h ⊢
      cases hs : shape (jget rawF key) <;> simp [hs] at h ⊢
      rw [h]
    · simp only [Bool.not_eq_true] at h2
      simp only [h2, Bool.false_eq_true, if_false] at h ⊢
      simp at h
      rw [h]

theorem foldl_healStep (shape : Cleaner) (fbo : Option JSObj) (rawF : JSObj) :
    ∀ (keys : List String) (acc : JSObj),
      (∀ k ∈ keys, k ∉ objKeys acc) → keys.Nodup →
      keys.foldl (healStep shape fbo rawF) acc =
        acc ++ keys.filterMap
          (fun k => (healAct shape fbo rawF k).map (fun v => (k, v))) := by
  intro keys
  induction keys with
  | nil => intro acc _ _; simp
  | cons k rest ih =>
    intro acc hacc hnd
    rw [List.foldl_cons]
    rcases hv : healAct shape fbo rawF k with _ | v
    · rw [healStep_eq_none shape fbo rawF acc k hv]
      rw [ih acc (fun k' hk' => hacc k' (List.mem_cons_of_mem k hk'))
        (List.Nodup.of_cons hnd)]
      simp [hv]
    · rw [healStep_eq_some shape fbo rawF acc k v hv]
      rw [setKey_of_not_mem acc k _ (hacc k (List.mem_cons_self k rest))]
      rw [ih (acc ++ [(k, v)]) ?_ (List.Nodup.of_cons hnd)]
      · simp [hv]
      · intro k' hk'
        rw [objKeys_append]
        simp only [List.mem_append, not_or]
        refine ⟨hacc k' (List.mem_cons_of_mem k hk'), ?_⟩
        have : k' ≠ k := by
          intro he
          rw [List.nodup_cons] at hnd
          exact hnd.1 (he ▸ hk')
        simpa [objKeys] using this

theorem objLookup_filterMap_of_not_mem (f : String → Option JSVal)
    (keys : List String) (key : String) (h : key ∉ keys) :
    objLookup (keys.filterMap (fun k => (f k).map (fun v => (k, v)))) key = none := by
  induction keys with
  | nil => rfl
  | cons k rest ih =>
    simp only [List.mem_cons, not_or] at h
    rcases hv : f k with _ | v
    · simp only [List.filterMap_cons, hv, Option.map_none']
      exact ih h.2
    · simp only [List.filterMap_cons, hv, Option.map_some']
      simp only [objLookup]
      rw [if_neg (Ne.symm h.1)]
      exact ih h.2

theorem objLookup_filterMap_of_mem (f : String → Option JSVal)
    (keys : List String) (key : String) (hnd : keys.Nodup) (h : key ∈ keys) :
    objLookup (keys.filterMap (fun k => (f k).map (fun v => (k, v)))) key = f key := by
  induction keys with
  | nil => simp at h
  | cons k rest ih =>
    rw [List.nodup_cons] at hnd
    rcases List.mem_cons.1 h with he | hm
    · subst he
      rcases hv : f key with _ | v
      · simp only [List.filterMap_cons, hv, Option.map_none']
        rw [objLookup_filterMap_of_not_mem f rest key hnd.1]
      · simp only [List.filterMap_cons, hv, Option.map_some']
        simp [objLookup]
    · have hne : key ≠ k := by
        intro he
        exact hnd.1 (he ▸ hm)
      rcases hv : f k with _ | v
      · simp only [List.filterMap_cons, hv, Option.map_none']
        exact ih hnd.2 hm
      · simp only [List.filterMap_cons, hv, Option.map_some']
        simp only [objLookup]
        rw [if_neg (Ne.symm hne)]
        exact ih hnd.2 hm

theorem objKeys_filterMap (f : String → Option JSVal) (keys : List String) :
    objKeys (keys.filterMap (fun k => (f k).map (fun v => (k, v)))) =
      keys.filter (fun k => (f k).isSome) := by
  induction keys with
  | nil => rfl
  | cons k rest ih =>
    rcases hv : f k with _ | v
    · simp [List.filterMap_cons, List.filter_cons, hv, ih]
    · simp [List.filterMap_cons, List.filter_cons, hv, objKeys_cons, ih]

/-! ## Spread and key enumeration -/

theorem objKeys_spread (b : JSObj) :
    ∀ a : JSObj, (objKeys b).Nodup →
      objKeys (spread a b) =
        objKeys a ++ (objKeys b).filter (fun k => !(decide (k ∈ objKeys a))) := by
  induction b with
  | nil =>
    intro a _
    simp only [spread, List.foldl_nil, objKeys_nil, List.filter_nil, List.append_nil]
  | cons p rest ih =>
    intro a hnd
    rw [objKeys_cons, List.nodup_cons] at hnd
    have hstep : spread a (p :: rest) = spread (setKey a p.1 p.2) rest := rfl
    rw [hstep, ih (setKey a p.1 p.2) hnd.2]
    by_cases hm : p.1 ∈ objKeys a
    · rw [objKeys_setKey_of_mem a p.1 p.2 hm]
      have : (objKeys (p :: rest)).filter (fun k => !(decide (k ∈ objKeys a))) =
          (objKeys rest).filter (fun k => !(decide (k ∈ objKeys a))) := by
        rw [objKeys_cons, List.filter_cons]
        simp [hm]
      rw [this]
    · rw [objKeys_setKey_of_not_mem a p.1 p.2 hm]
      have h1 : (objKeys (p :: rest)).filter (fun k => !(decide (k ∈ objKeys a))) =
          p.1 :: (objKeys rest).filter (fun k => !(decide (k ∈ objKeys a))) := by
        rw [objKeys_cons, List.filter_cons]
        simp [hm]
      rw [h1]
      have h2 : (objKeys rest).filter (fun k => !(decide (k ∈ objKeys a ++ [p.1]))) =
          (objKeys rest).filter (fun k => !(decide (k ∈ objKeys a))) := by
        apply List.filter_congr
        intro k hk
        have : k ≠ p.1 := fun he => hnd.1 (he ▸ hk)
        simp [List.mem_append, this]
      rw [h2, List.append_assoc]
      rfl

theorem nodup_objKeys_spread (b : JSObj) :
    ∀ a : JSObj, (objKeys a).Nodup → (objKeys (spread a b)).Nodup := by
  induction b with
  | nil => intro a h; exact h
  | cons p rest ih =>
    intro a h
    exact ih (setKey a p.1 p.2) (nodup_objKeys_setKey a p.1 p.2 h)

theorem nodup_enumKeys (fbo : Option JSObj) (rawF : JSObj)
    (h : (objKeys rawF).Nodup) : (enumKeys fbo rawF).Nodup := by
  cases fbo with
  | none => exact h
  | some fb => exact nodup_objKeys_spread fb rawF h

/-! ## Characterization of open-mode asHealingObject -/

theorem asMaybeObject_obj (shape : Cleaner) (fbo : Option JSObj) (rawF : JSObj) :
    asMaybeObject shape fbo (.obj rawF) =
      .ok (.obj ((enumKeys fbo rawF).foldl (healStep shape fbo rawF) [])) := rfl

theorem asMaybeObject_eq_filterMap (shape : Cleaner) (fbo : Option JSObj)
    (rawF : JSObj) (h : (objKeys rawF).Nodup) :
    asMaybeObject shape fbo (.obj rawF) =
      .ok (.obj ((enumKeys fbo rawF).filterMap
        (fun k => (healAct shape fbo rawF k).map (fun v => (k, v))))) := by
  rw [asMaybeObject_obj]
  rw [foldl_healStep shape fbo rawF (enumKeys fbo rawF) []
    (fun k _ => by simp [objKeys]) (nodup_enumKeys fbo rawF h)]
  rfl

/-! ## General support lemmas -/

theorem asMaybeVal_ok (c : Cleaner) (f x v : JSVal) (h : c x = .ok v) :
    asMaybeVal c f x = v := by
  unfold asMaybeVal
  rw [h]

theorem asMaybeVal_error (c : Cleaner) (f x : JSVal) (e : String)
    (h : c x = .error e) : asMaybeVal c f x = f := by
  unfold asMaybeVal
  rw [h]

theorem asMaybeVal_self (c : Cleaner) (f : JSVal)
    (hf : c f = .ok f ∨ ∃ e, c f = .error e) : asMaybeVal c f f = f := by
  rcases hf with hf | ⟨e, hf⟩
  · exact asMaybeVal_ok c f f f hf
  · exact asMaybeVal_error c f f e hf

theorem asMaybeVal_abs (c : Cleaner) (f x : JSVal)
    (hfix : ∀ x v, c x = .ok v → c v = .ok v)
    (hf : c f = .ok f ∨ ∃ e, c f = .error e) :
    asMaybeVal c f (asMaybeVal c f x) = asMaybeVal c f x := by
  rcases hx : c x with e | v
  · rw [asMaybeVal_error c f x e hx]
    exact asMaybeVal_self c f hf
  · rw [asMaybeVal_ok c f x v hx]
    exact asMaybeVal_ok c f v v (hfix x v hx)

theorem healAct_proto (shape : Cleaner) (fbo : Option JSObj) (rawF : JSObj) :
    healAct shape fbo rawF "__proto__" = none := by
  simp [healAct]

theorem healAct_ne_proto (shape : Cleaner) (fbo : Option JSObj) (rawF : JSObj)
    (k : String) (v : JSVal) (h : healAct shape fbo rawF k = some v) :
    k ≠ "__proto__" := by
  intro he
  rw [he, healAct_proto] at h
  exact Option.noConfusion h

theorem jget_mem (o : JSObj) (k : String) (h : k ∈ objKeys o) :
    (k, jget o k) ∈ o := by
  induction o with
  | nil => simp [objKeys] at h
  | cons p rest ih =>
    by_cases hp : p.1 = k
    · rw [jget, if_pos hp]
      exact hp ▸ List.mem_cons_self p rest
    · simp only [objKeys, List.map_cons, List.mem_cons] at h
      rcases h with h | h
      · exact absurd h.symm hp
      · rw [jget, if_neg hp]
        exact List.mem_cons_of_mem p (ih h)

theorem jget_eq_undef_of_not_mem (o : JSObj) (k : String) (h : k ∉ objKeys o) :
    jget o k = .undef := by
  rw [jget_eq_objLookup, objLookup_eq_none o k h]
  rfl

theorem mem_objKeys_of_jget_ne_undef (o : JSObj) (k : String)
    (h : jget o k ≠ .undef) : k ∈ objKeys o := by
  by_contra hc
  exact h (jget_eq_undef_of_not_mem o k hc)

theorem rebuild_assoc (f : String → Option JSVal) :
    ∀ o : JSObj, (objKeys o).Nodup →
      (∀ k ∈ objKeys o, f k = some (jget o k)) →
      (objKeys o).filterMap (fun k => (f k).map (fun v => (k, v))) = o := by
  intro o
  induction o with
  | nil => intro _ _; rfl
  | cons p rest ih =>
    intro hnd hf
    rw [objKeys_cons] at hnd hf ⊢
    rw [List.nodup_cons] at hnd
    have h1 : f p.1 = some p.2 := by
      have := hf p.1 (List.mem_cons_self p.1 (objKeys rest))
      rwa [jget, if_pos rfl] at this
    rw [List.filterMap_cons, h1, Option.map_some']
    have h2 : (objKeys rest).filterMap (fun k => (f k).map (fun v => (k, v))) = rest := by
      apply ih hnd.2
      intro k hk
      have hne : p.1 ≠ k := by
        intro he
        exact hnd.1 (he ▸ hk)
      have := hf k (List.mem_cons_of_mem p.1 hk)
      rwa [jget, if_neg hne] at this
    rw [h2]

theorem filterMap_congr_some {α β : Type} (l : List α) (f : α → Option β)
    (g : α → β) (h : ∀ a ∈ l, f a = some (g a)) :
    l.filterMap f = l.map g := by
  induction l with
  | nil => rfl
  | cons x rest ih =>
    rw [List.filterMap_cons, h x (List.mem_cons_self x rest), List.map_cons]
    rw [ih (fun a ha => h a (List.mem_cons_of_mem x ha))]

theorem assoc_eq_map_keys (o : JSObj) (h : (objKeys o).Nodup) :
    o = (objKeys o).map (fun k => (k, jget o k)) := by
  have h1 := rebuild_assoc (fun k => some (jget o k)) o h (fun k _ => rfl)
  have h2 := filterMap_congr_some (objKeys o)
    (fun k => (some (jget o k)).map (fun v => (k, v)))
    (fun k => (k, jget o k)) (fun k _ => rfl)
  exact (h1.symm).trans h2

theorem map_getD_range (xs : List JSVal) (d : JSVal) :
    (List.range xs.length).map (fun i => xs.getD i d) = xs := by
  induction xs with
  | nil => rfl
  | cons x rest ih =>
    rw [List.length_cons, List.range_succ_eq_map, List.map_cons, List.map_map]
    have h1 : ((fun i => (x :: rest).getD i d) ∘ Nat.succ) =
        (fun i => rest.getD i d) := by
      funext i
      exact List.getD_cons_succ
    rw [h1, ih]
    simp

theorem getD_map_range {α : Type} (n i : Nat) (g : Nat → α) (d : α) (h : i < n) :
    ((List.range n).map g).getD i d = g i := by
  rw [List.getD_eq_getElem ((List.range n).map g) d
    (by rw [List.length_map, List.length_range]; exact h)]
  simp

/-! ## Case lemmas for the combinators -/

theorem asMaybeObject_eq_cases (shape : Cleaner) (fbo : Option JSObj) (raw : JSVal) :
    asMaybeObject shape fbo raw =
      .ok (.obj (if typeofStr raw != "object" || looseEqNull raw then []
        else (enumKeys fbo (fieldsOf raw)).foldl
          (healStep shape fbo (fieldsOf raw)) [])) := by
  unfold asMaybeObject
  rcases h : typeofStr raw != "object" || looseEqNull raw <;> simp [h]

theorem asMaybeArray_arr (c : Cleaner) (fbl : Option (List JSVal)) (xs : List JSVal) :
    asMaybeArray c fbl (.arr xs) =
      .ok (.arr ((List.range
        (max xs.length (match fbl with | none => 0 | some fb => fb.length))).filterMap
        (arrayStep c fbl xs))) := rfl

theorem asMaybeArray_not_arr (c : Cleaner) (fbl : Option (List JSVal)) (raw : JSVal)
    (h : isArray raw = false) : asMaybeArray c fbl raw = .ok (.arr []) := by
  unfold asMaybeArray
  rw [h]
  rfl

theorem asMaybeTuple_arr (c : Cleaner) (fb xs : List JSVal) :
    asMaybeTuple c fb (.arr xs) =
      .ok (.arr ((List.range fb.length).map (fun i =>
        asMaybeVal c (fb.getD i .undef) (xs.getD i .undef)))) := rfl

theorem asMaybeTuple_not_arr (c : Cleaner) (fb : List JSVal) (raw : JSVal)
    (h : isArray raw = false) : asMaybeTuple c fb raw = .ok (.arr fb) := by
  unfold asMaybeTuple
  rw [h]
  rfl

theorem asHealingArrayCleaner_not_arr (c : Cleaner) (raw : JSVal)
    (h : isArray raw = false) : asHealingArrayCleaner c raw = .ok (.arr []) := by
  unfold asHealingArrayCleaner
  rw [h]
  rfl

theorem proto_not_mem_foldl (shape : Cleaner) (fbo : Option JSObj) (rawF : JSObj) :
    ∀ (keys : List String) (acc : JSObj), "__proto__" ∉ objKeys acc →
      "__proto__" ∉ objKeys (keys.foldl (healStep shape fbo rawF) acc) := by
  intro keys
  induction keys with
  | nil => intro acc h; exact h
  | cons k rest ih =>
    intro acc h
    rw [List.foldl_cons]
    apply ih
    rcases hv : healAct shape fbo rawF k with _ | v
    · rw [healStep_eq_none shape fbo rawF acc k hv]
      exact h
    · rw [healStep_eq_some shape fbo rawF acc k v hv]
      have hk := healAct_ne_proto shape fbo rawF k v hv
      by_cases hm : k ∈ objKeys acc
      · rw [objKeys_setKey_of_mem acc k v hm]
        exact h
      · rw [objKeys_setKey_of_not_mem acc k v hm]
        intro hmem
        rcases List.mem_append.1 hmem with hmem | hmem
        · exact h hmem
        · rw [List.mem_singleton] at hmem
          exact hk hmem.symm

/-! ## The claims -/

/-- C5: for every raw input and every element-level cleaner (which may fail
on arbitrary inputs), each healing combinator — open-mode and closed-mode
`asHealingObject`, both `asHealingArray` implementations, and
`asHealingTuple` — returns a value (`Except.ok`) and never raises: every
per-element or per-field failure is caught internally. -/
theorem c5_never_raises (c : Cleaner) (shape : List (String × Cleaner))
    (fbo : Option JSObj) (fbl : Option (List JSVal)) (fbt : List JSVal)
    (fbrec : JSObj) (raw : JSVal) :
    (asMaybeObject c fbo raw).isOk = true ∧
    (asHealingObjectShape shape fbrec raw).isOk = true ∧
    (asMaybeArray c fbl raw).isOk = true ∧
    (asHealingArrayCleaner c raw).isOk = true ∧
    (asMaybeTuple c fbt raw).isOk = true := by
  refine ⟨?_, rfl, ?_, ?_, ?_⟩
  · rw [asMaybeObject_eq_cases]
    rfl
  · cases raw <;> rfl
  · cases raw <;> rfl
  · cases raw <;> rfl

/-- C3: for every cleaner, fallback template and raw input whatsoever, the
output of `asHealingTuple` is an array of length exactly the template
length; non-array input yields a copy of the template verbatim, and raw
elements beyond the template length are ignored (only indices below the
template length are read). -/
theorem c3_tuple_length (c : Cleaner) (fb : List JSVal) (raw : JSVal) :
    ∃ out, asMaybeTuple c fb raw = .ok (.arr out) ∧
      out.length = fb.length ∧
      (isArray raw = false → out = fb) := by
  rcases h : isArray raw with hh | hh
  · refine ⟨fb, asMaybeTuple_not_arr c fb raw h, rfl, fun _ => rfl⟩
  · cases raw with
    | arr xs =>
      refine ⟨_, asMaybeTuple_arr c fb xs, ?_, ?_⟩
      · rw [List.length_map, List.length_range]
      · intro hc
        simp [isArray] at hc
    | null => simp [isArray] at h
    | undef => simp [isArray] at h
    | bool b => simp [isArray] at h
    | num n => simp [isArray] at h
    | str s => simp [isArray] at h
    | obj fs => simp [isArray] at h

/-- C10: the two `asHealingArray` implementations agree: for every cleaner
and raw input, the single-argument for-of implementation returns exactly
what the generalized indexed implementation returns when invoked without a
fallback list. -/
theorem c10_array_impls_agree (c : Cleaner) (raw : JSVal) :
    asHealingArrayCleaner c raw = asMaybeArray c none raw := by
  cases raw with
  | arr xs =>
    rw [asMaybeArray_arr]
    have h3 : max xs.length 0 = xs.length := Nat.max_zero xs.length
    rw [h3]
    have h5 : (List.range xs.length).filterMap (arrayStep c none xs) =
        ((List.range xs.length).map (fun i => xs.getD i .undef)).filterMap
          (fun x => match c x with | .ok v => some v | .error _ => none) := by
      rw [List.filterMap_map]
      rfl
    rw [h5, map_getD_range]
    rfl
  | null => rfl
  | undef => rfl
  | bool b => rfl
  | num n => rfl
  | str s => rfl
  | obj fs => rfl

/-- C9: the output of open-mode `asHealingObject` never contains an own key
named `__proto__`, for every cleaner, fallback map and raw input, even when
that key is present on the raw input or in the fallback map. -/
theorem c9_no_proto_key (shape : Cleaner) (fbo : Option JSObj) (raw : JSVal)
    (out : JSObj) (h : asMaybeObject shape fbo raw = .ok (.obj out)) :
    "__proto__" ∉ objKeys out := by
  rw [asMaybeObject_eq_cases] at h
  simp only [Except.ok.injEq, JSVal.obj.injEq] at h
  subst h
  by_cases hc : (typeofStr raw != "object" || looseEqNull raw) = true
  · rw [if_pos hc]
    simp [objKeys]
  · rw [if_neg hc]
    exact proto_not_mem_foldl shape fbo (fieldsOf raw)
      (enumKeys fbo (fieldsOf raw)) [] (by simp [objKeys])

/-- C9 witness: the concrete instance where both the raw input and the
fallback map carry a `__proto__` key. -/
theorem c9_witness :
    "__proto__" ∉ objKeys [(("a" : String), JSVal.num 1)] :=
  c9_no_proto_key asNumT (some [("__proto__", JSVal.num 7)])
    (.obj [("a", .num 1), ("__proto__", .num 2)]) [("a", JSVal.num 1)] rfl

/-- C3 witness: a non-array input healed by a two-element template. -/
theorem c3_witness :
    ∃ out, asMaybeTuple asNumT [JSVal.num 0, JSVal.num 0] (JSVal.str "nope") =
        .ok (.arr out) ∧
      out.length = [JSVal.num 0, JSVal.num 0].length ∧
      (isArray (JSVal.str "nope") = false → out = [JSVal.num 0, JSVal.num 0]) :=
  c3_tuple_length asNumT [JSVal.num 0, JSVal.num 0] (JSVal.str "nope")

/-- C6 counterexample: a list handed to the open-mode object healer is not
replaced by an empty map — it passes the `typeof raw === 'object'` guard
and is enumerated by index, so `asHealingObject(asNumber)([1])` yields the
map `{"0": 1}`. -/
theorem c6_counterexample :
    asMaybeObject asNumT none (.arr [.num 1]) ≠ .ok (.obj []) := by
  have h : asMaybeObject asNumT none (.arr [.num 1]) =
      .ok (.obj [(("0" : String), JSVal.num 1)]) := rfl
  rw [h]
  simp

/-- C6 (amended): for raw input that is null, undefined or a scalar, the
open-mode object healer returns an empty map (a list, however, counts as an
object and is enumerated by index); for raw input that is not a list
(null, undefined, scalar, or a map), `asHealingArray` returns an empty list
and `asHealingTuple` returns the fallback template verbatim. -/
theorem c6_amended (c : Cleaner) (fbo : Option JSObj) (fbl : Option (List JSVal))
    (fbt : List JSVal) (raw : JSVal) :
    (typeofStr raw ≠ "object" ∨ raw = .null →
      asMaybeObject c fbo raw = .ok (.obj [])) ∧
    (isArray raw = false →
      asMaybeArray c fbl raw = .ok (.arr []) ∧
      asHealingArrayCleaner c raw = .ok (.arr []) ∧
      asMaybeTuple c fbt raw = .ok (.arr fbt)) := by
  constructor
  · intro h
    rw [asMaybeObject_eq_cases]
    have hc : (typeofStr raw != "object" || looseEqNull raw) = true := by
      rcases h with h | h
      · simp [h]
      · subst h
        rfl
    rw [if_pos hc]
  · intro h
    exact ⟨asMaybeArray_not_arr c fbl raw h,
      asHealingArrayCleaner_not_arr c raw h, asMaybeTuple_not_arr c fbt raw h⟩

/-- C6 witness: the amended claim at a scalar input. -/
theorem c6_witness :
    asMaybeObject asNumT none (JSVal.num 3) = .ok (.obj []) ∧
    asMaybeArray asNumT none (JSVal.num 3) = .ok (.arr []) ∧
    asHealingArrayCleaner asNumT (JSVal.num 3) = .ok (.arr []) ∧
    asMaybeTuple asNumT [JSVal.num 0] (JSVal.num 3) = .ok (.arr [JSVal.num 0]) := by
  have h := c6_amended asNumT none none [JSVal.num 0] (JSVal.num 3)
  have h1 := h.1 (Or.inl (by simp [typeofStr]))
  have h2 := h.2 rfl
  exact ⟨h1, h2.1, h2.2.1, h2.2.2⟩

/-- C1: per-key behaviour of open-mode `asHealingObject` on object input:
for every enumerated key other than the reserved `__proto__` key — when the
fallback map has no usable (non-null, non-undefined) entry for the key, the
output binds the key to `cleaner(raw[key])` when that call succeeds and
omits the key entirely when it fails; when the fallback map has a usable
entry, the key is always present, bound to `cleaner(raw[key])` on success
and to the fallback entry on failure. -/
theorem c1_open_object_per_key (shape : Cleaner) (fbo : Option JSObj)
    (rawF : JSObj) (key : String) (hnd : (objKeys rawF).Nodup)
    (hkey : key ∈ enumKeys fbo rawF) (hp : key ≠ "__proto__") :
    ∃ out, asMaybeObject shape fbo (.obj rawF) = .ok (.obj out) ∧
      (looseEqNull (optGet fbo key) = true →
        (∀ v, shape (jget rawF key) = .ok v → objLookup out key = some v) ∧
        (∀ e, shape (jget rawF key) = .error e → objLookup out key = none)) ∧
      (looseEqNull (optGet fbo key) = false →
        (∀ v, shape (jget rawF key) = .ok v → objLookup out key = some v) ∧
        (∀ e, shape (jget rawF key) = .error e →
          objLookup out key = some (optGet fbo key))) := by
  refine ⟨_, asMaybeObject_eq_filterMap shape fbo rawF hnd, ?_, ?_⟩
  all_goals
    have hl := objLookup_filterMap_of_mem
      (fun k => healAct shape fbo rawF k) (enumKeys fbo rawF) key
      (nodup_enumKeys fbo rawF hnd) hkey
  · intro hu
    constructor
    · intro v hv
      rw [hl]
      simp [healAct, hp, hu, hv]
    · intro e he
      rw [hl]
      simp [healAct, hp, hu, he]
  · intro hu
    constructor
    · intro v hv
      rw [hl]
      simp [healAct, hp, hu, asMaybeVal, hv]
    · intro e he
      rw [hl]
      simp [healAct, hp, hu, asMaybeVal, he]

/-- C1 witness: the fallback map supplies a usable default for key `b`,
whose raw value fails the cleaner, while key `a` has no fallback entry. -/
theorem c1_witness :
    ∃ out, asMaybeObject asNumT (some [(("b" : String), JSVal.num 9)])
        (.obj [("a", .num 1), ("b", .str "bad")]) = .ok (.obj out) ∧
      (looseEqNull (optGet (some [(("b" : String), JSVal.num 9)]) "b") = true →
        (∀ v, asNumT (jget [(("a" : String), JSVal.num 1), ("b", .str "bad")] "b") = .ok v →
          objLookup out "b" = some v) ∧
        (∀ e, asNumT (jget [(("a" : String), JSVal.num 1), ("b", .str "bad")] "b") = .error e →
          objLookup out "b" = none)) ∧
      (looseEqNull (optGet (some [(("b" : String), JSVal.num 9)]) "b") = false →
        (∀ v, asNumT (jget [(("a" : String), JSVal.num 1), ("b", .str "bad")] "b") = .ok v →
          objLookup out "b" = some v) ∧
        (∀ e, asNumT (jget [(("a" : String), JSVal.num 1), ("b", .str "bad")] "b") = .error e →
          objLookup out "b" = some (optGet (some [(("b" : String), JSVal.num 9)]) "b"))) :=
  c1_open_object_per_key asNumT (some [("b", JSVal.num 9)])
    [("a", JSVal.num 1), ("b", JSVal.str "bad")] "b" (by decide) (by decide)
    (by decide)

theorem mem_insertIdx (k m : String) (l : List String) :
    m ∈ insertIdx k l ↔ m = k ∨ m ∈ l := by
  induction l with
  | nil => simp [insertIdx]
  | cons x rest ih =>
    by_cases h : idxLt x k = true
    · simp only [insertIdx, h, if_true, List.mem_cons, ih]
      constructor
      · rintro (hx | hm | hm)
        · exact Or.inr (Or.inl hx)
        · exact Or.inl hm
        · exact Or.inr (Or.inr hm)
      · rintro (hm | hx | hm)
        · exact Or.inr (Or.inl hm)
        · exact Or.inl hx
        · exact Or.inr (Or.inr hm)
    · simp [insertIdx, h]

theorem mem_sortIdx (l : List String) (m : String) :
    m ∈ sortIdx l ↔ m ∈ l := by
  induction l with
  | nil => simp [sortIdx]
  | cons x rest ih =>
    have hstep : sortIdx (x :: rest) = insertIdx x (sortIdx rest) := rfl
    rw [hstep, mem_insertIdx, ih, List.mem_cons]

theorem mem_jsEnumKeys (o : JSObj) (k : String) :
    k ∈ jsEnumKeys o ↔ k ∈ objKeys o := by
  unfold jsEnumKeys
  rw [List.mem_append, mem_sortIdx]
  constructor
  · rintro (hk | hk)
    · exact (List.mem_filter.1 hk).1
    · exact (List.mem_filter.1 hk).1
  · intro hk
    rcases hidx : isArrayIndexKey k with hh | hh
    · right
      rw [List.mem_filter]
      exact ⟨hk, by simp [hidx]⟩
    · left
      rw [List.mem_filter]
      exact ⟨hk, hidx⟩

theorem mem_objKeys_setKey (a : JSObj) (k k' : String) (v : JSVal) :
    k' ∈ objKeys (setKey a k v) ↔ k' = k ∨ k' ∈ objKeys a := by
  by_cases hm : k ∈ objKeys a
  · rw [objKeys_setKey_of_mem a k v hm]
    constructor
    · exact Or.inr
    · rintro (he | he)
      · exact he ▸ hm
      · exact he
  · rw [objKeys_setKey_of_not_mem a k v hm, List.mem_append, List.mem_singleton]
    constructor
    · rintro (he | he)
      · exact Or.inr he
      · exact Or.inl he
    · rintro (he | he)
      · exact Or.inr he
      · exact Or.inl he

theorem mem_objKeys_spread (b : JSObj) :
    ∀ (a : JSObj) (k : String),
      k ∈ objKeys (spread a b) ↔ k ∈ objKeys a ∨ k ∈ objKeys b := by
  induction b with
  | nil =>
    intro a k
    simp [spread, objKeys]
  | cons p rest ih =>
    intro a k
    have hstep : spread a (p :: rest) = spread (setKey a p.1 p.2) rest := rfl
    rw [hstep, ih, mem_objKeys_setKey, objKeys_cons, List.mem_cons]
    constructor
    · rintro ((he | hm) | hm)
      · exact Or.inr (Or.inl he)
      · exact Or.inl hm
      · exact Or.inr (Or.inr hm)
    · rintro (hm | he | hm)
      · exact Or.inl (Or.inr hm)
      · exact Or.inl (Or.inl he)
      · exact Or.inr hm

theorem jsEnumKeys_of_no_index (o : JSObj)
    (h : ∀ k ∈ objKeys o, isArrayIndexKey k = false) :
    jsEnumKeys o = objKeys o := by
  unfold jsEnumKeys
  have h1 : (objKeys o).filter (fun k => isArrayIndexKey k) = [] := by
    rw [List.filter_eq_nil_iff]
    intro k hk
    simp [h k hk]
  have h2 : (objKeys o).filter (fun k => !(isArrayIndexKey k)) = objKeys o := by
    rw [List.filter_eq_self]
    intro k hk
    simp [h k hk]
  rw [h1, h2]
  rfl

/-- C8 counterexample: the claimed enumeration order — raw's own keys first,
then fallback-only keys — is false of the source.  `Object.keys` enumerates
array-index keys first in ascending numeric order, so for raw `{a: 1}` and
fallback `{"0": 5}` the source's key loop iterates `["0", "a"]` — the
fallback-only key `"0"` before raw's own key `"a"` — not `["a", "0"]` as
the claim requires. -/
theorem c8_counterexample :
    jsEnumKeys (spread [(("a" : String), JSVal.num 1)]
        [(("0" : String), JSVal.num 5)]) ≠
      objKeys [(("a" : String), JSVal.num 1)] ++
        (objKeys [(("0" : String), JSVal.num 5)]).filter
          (fun k => !(decide (k ∈ objKeys [(("a" : String), JSVal.num 1)]))) := by
  have h1 : jsEnumKeys (spread [(("a" : String), JSVal.num 1)]
      [(("0" : String), JSVal.num 5)]) = ["0", "a"] := by decide
  have h2 : objKeys [(("a" : String), JSVal.num 1)] ++
      (objKeys [(("0" : String), JSVal.num 5)]).filter
        (fun k => !(decide (k ∈ objKeys [(("a" : String), JSVal.num 1)]))) =
      ["a", "0"] := by decide
  rw [h1, h2]
  decide

/-- C8 (amended): key enumeration of open-mode `asHealingObject` on object
input.  With no fallback map exactly the raw input's own keys are iterated;
with a fallback map exactly the union of raw keys and fallback keys is
iterated, and only keys are taken from the union — the value bound to each
enumerated key is produced by `healAct` from the raw input's own property
and the fallback entry, never from merged values.  The iteration order is
JavaScript property-enumeration order (array-index keys first in ascending
numeric order): only when no enumerated key is an array-index key is the
order exactly raw's own keys first, in their own order, followed by the
fallback-only keys. -/
theorem c8_amended_key_enumeration (shape : Cleaner) (rawF : JSObj)
    (hnd : (objKeys rawF).Nodup) :
    (∀ k, k ∈ jsEnumKeys rawF ↔ k ∈ objKeys rawF) ∧
    (∀ fb : JSObj, ∀ k, k ∈ jsEnumKeys (spread rawF fb) ↔
      k ∈ objKeys rawF ∨ k ∈ objKeys fb) ∧
    (∀ fb : JSObj, (objKeys fb).Nodup →
      (∀ k ∈ objKeys rawF, isArrayIndexKey k = false) →
      (∀ k ∈ objKeys fb, isArrayIndexKey k = false) →
      jsEnumKeys (spread rawF fb) =
        objKeys rawF ++ (objKeys fb).filter
          (fun k => !(decide (k ∈ objKeys rawF)))) ∧
    (∀ fb : JSObj, ∀ key ∈ enumKeys (some fb) rawF,
      ∃ out, asMaybeObject shape (some fb) (.obj rawF) = .ok (.obj out) ∧
        objLookup out key = healAct shape (some fb) rawF key) := by
  refine ⟨fun k => mem_jsEnumKeys rawF k, ?_, ?_, ?_⟩
  · intro fb k
    rw [mem_jsEnumKeys, mem_objKeys_spread]
  · intro fb hfbnd hraw hfb
    have hall : ∀ k ∈ objKeys (spread rawF fb), isArrayIndexKey k = false := by
      intro k hk
      rcases (mem_objKeys_spread fb rawF k).1 hk with h | h
      · exact hraw k h
      · exact hfb k h
    rw [jsEnumKeys_of_no_index (spread rawF fb) hall, objKeys_spread fb rawF hfbnd]
  · intro fb key hkey
    refine ⟨_, asMaybeObject_eq_filterMap shape (some fb) rawF hnd, ?_⟩
    exact objLookup_filterMap_of_mem (fun k => healAct shape (some fb) rawF k)
      (enumKeys (some fb) rawF) key (nodup_enumKeys (some fb) rawF hnd) hkey

/-- C8 witness: raw keys `a`, `b` with fallback keys `b`, `c` — none of
them array-index keys — enumerate as the union `a`, `b`, `c`, raw's keys
first in their own order. -/
theorem c8_witness :
    jsEnumKeys (spread [(("a" : String), JSVal.num 1), ("b", JSVal.num 2)]
        [(("b" : String), JSVal.num 9), ("c", JSVal.num 8)]) =
      objKeys [(("a" : String), JSVal.num 1), ("b", JSVal.num 2)] ++
        (objKeys [(("b" : String), JSVal.num 9), ("c", JSVal.num 8)]).filter
          (fun k => !(decide (k ∈
            objKeys [(("a" : String), JSVal.num 1), ("b", JSVal.num 2)]))) :=
  (c8_amended_key_enumeration asNumT
      [(("a" : String), JSVal.num 1), ("b", JSVal.num 2)] (by decide)).2.2.1
    [(("b" : String), JSVal.num 9), ("c", JSVal.num 8)]
    (by decide) (by decide) (by decide)

/-- C2: for `asHealingArray` with a fallback list, at every index below
`max(len(raw), len(fallback))`: the output contains the cleaned element
when the cleaner succeeds; it contains the fallback entry when the cleaner
fails and the entry is usable (defined and non-null) — so no such index is
ever dropped; and an index whose fallback entry is unusable contributes
nothing on failure (the output compacts in iteration order). -/
theorem c2_array_with_fallback (c : Cleaner) (fb xs : List JSVal) (i : Nat)
    (hi : i < max xs.length fb.length) :
    ∃ out, asMaybeArray c (some fb) (.arr xs) = .ok (.arr out) ∧
      (∀ v, c (xs.getD i .undef) = .ok v → v ∈ out) ∧
      (looseEqNull (fb.getD i .undef) = false →
        ∀ e, c (xs.getD i .undef) = .error e → fb.getD i .undef ∈ out) ∧
      (looseEqNull (fb.getD i .undef) = true →
        ∀ e, c (xs.getD i .undef) = .error e →
          arrayStep c (some fb) xs i = none) := by
  refine ⟨_, asMaybeArray_arr c (some fb) xs, ?_, ?_, ?_⟩
  · intro v hv
    apply List.mem_filterMap.2
    refine ⟨i, List.mem_range.2 hi, ?_⟩
    by_cases hu : looseEqNull (optIndex (some fb) i) = true
    · simp [arrayStep, hu, ← List.getD_eq_getElem?_getD, hv]
    · simp only [Bool.not_eq_true] at hu
      simp [arrayStep, hu, asMaybeVal, ← List.getD_eq_getElem?_getD, hv]
  · intro hu e he
    apply List.mem_filterMap.2
    refine ⟨i, List.mem_range.2 hi, ?_⟩
    have hu' : looseEqNull (optIndex (some fb) i) = false := hu
    simp [arrayStep, hu', asMaybeVal, ← List.getD_eq_getElem?_getD, he, optIndex, hu]
  · intro hu e he
    have hu' : looseEqNull (optIndex (some fb) i) = true := hu
    simp [arrayStep, hu', ← List.getD_eq_getElem?_getD, he]

/-- C2 witness: index 1 of a two-element raw list whose element fails,
with a usable fallback entry at that index. -/
theorem c2_witness :
    ∃ out, asMaybeArray asNumT (some [JSVal.num 7, JSVal.num 9])
        (.arr [.num 1, .str "bad"]) = .ok (.arr out) ∧
      (∀ v, asNumT ([JSVal.num 1, JSVal.str "bad"].getD 1 .undef) = .ok v → v ∈ out) ∧
      (looseEqNull ([JSVal.num 7, JSVal.num 9].getD 1 .undef) = false →
        ∀ e, asNumT ([JSVal.num 1, JSVal.str "bad"].getD 1 .undef) = .error e →
          [JSVal.num 7, JSVal.num 9].getD 1 .undef ∈ out) ∧
      (looseEqNull ([JSVal.num 7, JSVal.num 9].getD 1 .undef) = true →
        ∀ e, asNumT ([JSVal.num 1, JSVal.str "bad"].getD 1 .undef) = .error e →
          arrayStep asNumT (some [JSVal.num 7, JSVal.num 9])
            [JSVal.num 1, JSVal.str "bad"] 1 = none) :=
  c2_array_with_fallback asNumT [JSVal.num 7, JSVal.num 9]
    [JSVal.num 1, JSVal.str "bad"] 1 (by decide)

/-! ## Closed-mode asHealingObject -/

theorem cleanShapeFields_safeShape (shape : List (String × Cleaner))
    (fallback rawF : JSObj) :
    cleanShapeFields (safeShapeOf shape fallback) rawF =
      .ok (shape.map (fun p =>
        (p.1, asMaybeVal p.2 (jget fallback p.1) (jget rawF p.1)))) := by
  induction shape with
  | nil => rfl
  | cons p rest ih =>
    obtain ⟨k, c⟩ := p
    simp only [safeShapeOf, List.map_cons] at ih ⊢
    rw [cleanShapeFields]
    simp only [asMaybe]
    rw [ih]

theorem asHealingObjectShape_eq (shape : List (String × Cleaner))
    (fallback : JSObj) (raw : JSVal) :
    asHealingObjectShape shape fallback raw =
      .ok (asMaybeVal (asObject (safeShapeOf shape fallback))
        (.obj fallback) raw) := rfl

theorem asObject_guard_error (shape : List (String × Cleaner)) (raw : JSVal)
    (h : (looseEqNull raw || typeofStr raw != "object") = true) :
    asObject shape raw = .error ("Expected an object") := by
  unfold asObject
  rw [if_pos h]

theorem asObject_guard_ok (shape : List (String × Cleaner)) (fallback : JSObj)
    (raw : JSVal) (h : (looseEqNull raw || typeofStr raw != "object") = false) :
    asObject (safeShapeOf shape fallback) raw =
      .ok (.obj (shape.map (fun p =>
        (p.1, asMaybeVal p.2 (jget fallback p.1) (jget (fieldsOf raw) p.1))))) := by
  unfold asObject
  rw [if_neg (by simp [h]), cleanShapeFields_safeShape]

/-- C4: the closed (shape) mode of `asHealingObject`: for every shape,
fallback record (with the shape's key set, per the documented invariant)
and raw input, the output carries exactly the fields declared in the shape
in the shape's declaration order, raw fields outside the shape never appear,
and null or non-object raw input yields the fallback record verbatim. -/
theorem c4_closed_shape (shape : List (String × Cleaner)) (fallback : JSObj)
    (raw : JSVal) (hfb : objKeys fallback = shape.map Prod.fst) :
    ∃ out, asHealingObjectShape shape fallback raw = .ok (.obj out) ∧
      objKeys out = shape.map Prod.fst ∧
      (∀ k, k ∉ shape.map Prod.fst → objLookup out k = none) ∧
      (looseEqNull raw = true ∨ typeofStr raw ≠ "object" → out = fallback) := by
  rcases hg : looseEqNull raw || typeofStr raw != "object" with hh | hh
  · refine ⟨shape.map (fun p =>
      (p.1, asMaybeVal p.2 (jget fallback p.1) (jget (fieldsOf raw) p.1))), ?_, ?_, ?_, ?_⟩
    · rw [asHealingObjectShape_eq]
      unfold asMaybeVal
      rw [asObject_guard_ok shape fallback raw hg]
      rfl
    · unfold objKeys
      rw [List.map_map]
      rfl
    · intro k hk
      apply objLookup_eq_none
      unfold objKeys
      rw [List.map_map]
      exact hk
    · intro h
      exfalso
      simp only [Bool.or_eq_false_iff] at hg
      rcases h with h | h
      · rw [h] at hg
        exact Bool.noConfusion hg.1
      · apply h
        have := hg.2
        simpa [bne] using this
  · refine ⟨fallback, ?_, hfb, ?_, fun _ => rfl⟩
    · rw [asHealingObjectShape_eq]
      unfold asMaybeVal
      rw [asObject_guard_error (safeShapeOf shape fallback) raw hg]
    · intro k hk
      apply objLookup_eq_none
      rw [hfb]
      exact hk

/-- C4 witness: a two-field shape applied to a raw object carrying one
valid field, one invalid field and one unknown field, and to a non-object
input. -/
theorem c4_witness :
    (∃ out, asHealingObjectShape
        [(("name" : String), asNumT), ("age", asNumT)]
        [(("name" : String), JSVal.num 0), ("age", JSVal.num 1)]
        (.obj [("age", .str "bad"), ("extra", .num 9), ("name", .num 3)]) =
          .ok (.obj out) ∧
      objKeys out = [(("name" : String), asNumT), ("age", asNumT)].map Prod.fst ∧
      (∀ k, k ∉ [(("name" : String), asNumT), ("age", asNumT)].map Prod.fst →
        objLookup out k = none) ∧
      (looseEqNull (JSVal.obj [("age", .str "bad"), ("extra", .num 9), ("name", .num 3)]) = true ∨
        typeofStr (JSVal.obj [("age", .str "bad"), ("extra", .num 9), ("name", .num 3)]) ≠ "object" →
        out = [(("name" : String), JSVal.num 0), ("age", JSVal.num 1)])) ∧
    (∃ out, asHealingObjectShape
        [(("name" : String), asNumT), ("age", asNumT)]
        [(("name" : String), JSVal.num 0), ("age", JSVal.num 1)] (.str "zap") =
          .ok (.obj out) ∧
      objKeys out = [(("name" : String), asNumT), ("age", asNumT)].map Prod.fst ∧
      (∀ k, k ∉ [(("name" : String), asNumT), ("age", asNumT)].map Prod.fst →
        objLookup out k = none) ∧
      (looseEqNull (JSVal.str "zap") = true ∨
        typeofStr (JSVal.str "zap") ≠ "object" →
        out = [(("name" : String), JSVal.num 0), ("age", JSVal.num 1)])) :=
  ⟨c4_closed_shape [("name", asNumT), ("age", asNumT)]
      [("name", JSVal.num 0), ("age", JSVal.num 1)]
      (.obj [("age", .str "bad"), ("extra", .num 9), ("name", .num 3)]) rfl,
    c4_closed_shape [("name", asNumT), ("age", asNumT)]
      [("name", JSVal.num 0), ("age", JSVal.num 1)] (.str "zap") rfl⟩

/-! ## Idempotence support -/

theorem asNumT_fix : ∀ x v, asNumT x = .ok v → asNumT v = .ok v := by
  intro x v hx
  cases x <;> simp [asNumT] at hx
  rw [← hx]
  rfl

theorem asMaybeObject_eq_filterMap_gen (shape : Cleaner) (fbo : Option JSObj)
    (raw : JSVal) (hg : (typeofStr raw != "object" || looseEqNull raw) = false)
    (h : (objKeys (fieldsOf raw)).Nodup) :
    asMaybeObject shape fbo raw =
      .ok (.obj ((enumKeys fbo (fieldsOf raw)).filterMap
        (fun k => (healAct shape fbo (fieldsOf raw) k).map (fun v => (k, v))))) := by
  rw [asMaybeObject_eq_cases, if_neg (by simp [hg])]
  rw [foldl_healStep shape fbo (fieldsOf raw) (enumKeys fbo (fieldsOf raw)) []
    (fun k _ => by simp [objKeys]) (nodup_enumKeys fbo (fieldsOf raw) h)]
  rfl

theorem healAct_none_some (c : Cleaner) (rawF : JSObj) (k : String) (v : JSVal)
    (h : healAct c none rawF k = some v) : c (jget rawF k) = .ok v := by
  unfold healAct at h
  by_cases h1 : (k == "__proto__") = true
  · rw [if_pos h1] at h
    exact Option.noConfusion h
  · rw [if_neg h1] at h
    have h2 : looseEqNull (optGet none k) = true := rfl
    rw [if_pos h2] at h
    rcases hs : c (jget rawF k) with e | w <;> rw [hs] at h
    · exact Option.noConfusion h
    · rw [Option.some.injEq] at h
      rw [h]

theorem healAct_unusable (c : Cleaner) (fbo : Option JSObj) (rawF : JSObj)
    (k : String) (hnp : k ≠ "__proto__")
    (hu : looseEqNull (optGet fbo k) = true) :
    healAct c fbo rawF k =
      match c (jget rawF k) with
      | .ok v => some v
      | .error _ => none := by
  unfold healAct
  rw [if_neg (by simpa using hnp), if_pos hu]

theorem healAct_usable (c : Cleaner) (fbo : Option JSObj) (rawF : JSObj)
    (k : String) (hnp : k ≠ "__proto__")
    (hu : looseEqNull (optGet fbo k) = false) :
    healAct c fbo rawF k =
      some (asMaybeVal c (optGet fbo k) (jget rawF k)) := by
  unfold healAct
  rw [if_neg (by simpa using hnp), if_neg (by simp [hu])]

theorem healAct_unusable_some (c : Cleaner) (fbo : Option JSObj) (rawF : JSObj)
    (k : String) (v : JSVal) (hnp : k ≠ "__proto__")
    (hu : looseEqNull (optGet fbo k) = true)
    (h : healAct c fbo rawF k = some v) : c (jget rawF k) = .ok v := by
  rw [healAct_unusable c fbo rawF k hnp hu] at h
  rcases hs : c (jget rawF k) with e | w <;> rw [hs] at h
  · exact Option.noConfusion h
  · rw [Option.some.injEq] at h
    rw [h]

theorem arrayStep_unusable (c : Cleaner) (fbl : Option (List JSVal))
    (xs : List JSVal) (i : Nat) (hu : looseEqNull (optIndex fbl i) = true) :
    arrayStep c fbl xs i =
      match c (xs.getD i .undef) with
      | .ok v => some v
      | .error _ => none := by
  unfold arrayStep
  rw [if_pos hu]

theorem arrayStep_usable (c : Cleaner) (fbl : Option (List JSVal))
    (xs : List JSVal) (i : Nat) (hu : looseEqNull (optIndex fbl i) = false) :
    arrayStep c fbl xs i =
      some (asMaybeVal c (optIndex fbl i) (xs.getD i .undef)) := by
  unfold arrayStep
  rw [if_neg (by simp [hu])]

theorem jget_map_shape (shape : List (String × Cleaner))
    (g : String × Cleaner → JSVal) (hnd : (shape.map Prod.fst).Nodup)
    (p : String × Cleaner) (hp : p ∈ shape) :
    jget (shape.map (fun q => (q.1, g q))) p.1 = g p := by
  induction shape with
  | nil => cases hp
  | cons q rest ih =>
    rw [List.map_cons] at hnd ⊢
    rw [List.nodup_cons] at hnd
    rcases List.mem_cons.1 hp with he | hm
    · subst he
      rw [jget, if_pos rfl]
    · have hne : q.1 ≠ p.1 := by
        intro heq
        exact hnd.1 (heq ▸ List.mem_map_of_mem Prod.fst hm)
      rw [jget, if_neg hne]
      exact ih hnd.2 hm

theorem getD_mem (l : List JSVal) (i : Nat) (d : JSVal) (h : i < l.length) :
    l.getD i d ∈ l := by
  rw [List.getD_eq_getElem l d h]
  exact List.getElem_mem h

theorem closedShape_on_obj (shape : List (String × Cleaner)) (fallback F : JSObj) :
    asHealingObjectShape shape fallback (.obj F) =
      .ok (.obj (shape.map (fun p =>
        (p.1, asMaybeVal p.2 (jget fallback p.1) (jget F p.1))))) := by
  rw [asHealingObjectShape_eq]
  unfold asMaybeVal
  rw [asObject_guard_ok shape fallback (.obj F) rfl]
  rfl

theorem idem_tuple (c : Cleaner) (fb : List JSVal)
    (hfix : ∀ x v, c x = .ok v → c v = .ok v)
    (hb : ∀ f ∈ fb, c f = .ok f ∨ ∃ e, c f = .error e) :
    ∀ raw out, asMaybeTuple c fb raw = .ok (.arr out) →
      asMaybeTuple c fb (.arr out) = .ok (.arr out) := by
  intro raw out h
  rcases ha : isArray raw with hh | hh
  · rw [asMaybeTuple_not_arr c fb raw ha] at h
    simp only [Except.ok.injEq, JSVal.arr.injEq] at h
    rw [asMaybeTuple_arr, ← h]
    have h1 : (List.range fb.length).map (fun i =>
        asMaybeVal c (fb.getD i .undef) (fb.getD i .undef)) =
        (List.range fb.length).map (fun i => fb.getD i .undef) := by
      apply List.map_congr_left
      intro i hi
      exact asMaybeVal_self c (fb.getD i .undef)
        (hb (fb.getD i .undef) (getD_mem fb i .undef (List.mem_range.1 hi)))
    rw [h1, map_getD_range]
  · cases raw with
    | arr xs =>
      rw [asMaybeTuple_arr] at h
      simp only [Except.ok.injEq, JSVal.arr.injEq] at h
      rw [asMaybeTuple_arr]
      suffices h2 : (List.range fb.length).map (fun i =>
          asMaybeVal c (fb.getD i .undef) (out.getD i .undef)) = out by
        rw [h2]
      rw [← h]
      apply List.map_congr_left
      intro i hi
      rw [getD_map_range fb.length i
        (fun j => asMaybeVal c (fb.getD j JSVal.undef) (xs.getD j JSVal.undef))
        JSVal.undef (List.mem_range.1 hi)]
      exact asMaybeVal_abs c (fb.getD i .undef) (xs.getD i .undef) hfix
        (hb (fb.getD i .undef) (getD_mem fb i .undef (List.mem_range.1 hi)))
    | null => simp [isArray] at ha
    | undef => simp [isArray] at ha
    | bool b => simp [isArray] at ha
    | num n => simp [isArray] at ha
    | str s => simp [isArray] at ha
    | obj fs => simp [isArray] at ha

theorem idem_array_none (c : Cleaner)
    (hfix : ∀ x v, c x = .ok v → c v = .ok v) :
    ∀ raw out, asMaybeArray c none raw = .ok (.arr out) →
      asMaybeArray c none (.arr out) = .ok (.arr out) := by
  intro raw out h
  rcases ha : isArray raw with hh | hh
  · rw [asMaybeArray_not_arr c none raw ha] at h
    simp only [Except.ok.injEq, JSVal.arr.injEq] at h
    subst h
    rfl
  · cases raw with
    | arr xs =>
      rw [asMaybeArray_arr] at h
      simp only [Except.ok.injEq, JSVal.arr.injEq] at h
      have hall : ∀ y ∈ out, c y = .ok y := by
        intro y hy
        rw [← h] at hy
        obtain ⟨i, _, hstep⟩ := List.mem_filterMap.1 hy
        rw [arrayStep_unusable c none xs i rfl] at hstep
        rcases hs : c (xs.getD i .undef) with e | w <;> rw [hs] at hstep
        · exact Option.noConfusion hstep
        · rw [Option.some.injEq] at hstep
          subst hstep
          exact hfix _ _ hs
      rw [asMaybeArray_arr]
      have h1 : (List.range (max out.length 0)).filterMap (arrayStep c none out) =
          out := by
        rw [Nat.max_zero]
        have h2 : ∀ i ∈ List.range out.length,
            arrayStep c none out i = some (out.getD i .undef) := by
          intro i hi
          rw [arrayStep_unusable c none out i rfl,
            hall (out.getD i .undef) (getD_mem out i .undef (List.mem_range.1 hi))]
        rw [filterMap_congr_some (List.range out.length) _ _ h2, map_getD_range]
      rw [h1]
    | null => simp [isArray] at ha
    | undef => simp [isArray] at ha
    | bool b => simp [isArray] at ha
    | num n => simp [isArray] at ha
    | str s => simp [isArray] at ha
    | obj fs => simp [isArray] at ha

theorem fallback_as_shape_map (shape : List (String × Cleaner)) (fallback : JSObj)
    (hnd : (shape.map Prod.fst).Nodup)
    (hfb : objKeys fallback = shape.map Prod.fst) :
    fallback = shape.map (fun p => (p.1, jget fallback p.1)) := by
  have h1 := assoc_eq_map_keys fallback (hfb ▸ hnd)
  rw [hfb, List.map_map] at h1
  exact h1

theorem idem_closed (shape : List (String × Cleaner)) (fallback : JSObj)
    (hnd : (shape.map Prod.fst).Nodup)
    (hfb : objKeys fallback = shape.map Prod.fst)
    (hfix : ∀ p ∈ shape, ∀ x v, p.2 x = .ok v → p.2 v = .ok v)
    (hb : ∀ p ∈ shape, p.2 (jget fallback p.1) = .ok (jget fallback p.1) ∨
      ∃ e, p.2 (jget fallback p.1) = .error e) :
    ∀ raw out, asHealingObjectShape shape fallback raw = .ok (.obj out) →
      asHealingObjectShape shape fallback (.obj out) = .ok (.obj out) := by
  intro raw out h
  rcases hg : looseEqNull raw || typeofStr raw != "object" with hh | hh
  · -- object-kind raw: the output is the cleaned shape record
    rw [asHealingObjectShape_eq] at h
    unfold asMaybeVal at h
    rw [asObject_guard_ok shape fallback raw hg] at h
    simp only [Except.ok.injEq, JSVal.obj.injEq] at h
    rw [closedShape_on_obj]
    suffices h2 : shape.map (fun p =>
        (p.1, asMaybeVal p.2 (jget fallback p.1) (jget out p.1))) = out by
      rw [h2]
    rw [← h]
    apply List.map_congr_left
    intro p hp
    have hjget : jget (shape.map (fun q =>
        (q.1, asMaybeVal q.2 (jget fallback q.1) (jget (fieldsOf raw) q.1))) ) p.1 =
        asMaybeVal p.2 (jget fallback p.1) (jget (fieldsOf raw) p.1) :=
      jget_map_shape shape
        (fun q => asMaybeVal q.2 (jget fallback q.1) (jget (fieldsOf raw) q.1))
        hnd p hp
    rw [hjget]
    rw [asMaybeVal_abs p.2 (jget fallback p.1) (jget (fieldsOf raw) p.1)
      (hfix p hp) (hb p hp)]
  · -- non-object raw: the output is the fallback record verbatim
    rw [asHealingObjectShape_eq] at h
    unfold asMaybeVal at h
    rw [asObject_guard_error (safeShapeOf shape fallback) raw hg] at h
    simp only [Except.ok.injEq, JSVal.obj.injEq] at h
    rw [closedShape_on_obj]
    suffices h2 : shape.map (fun p =>
        (p.1, asMaybeVal p.2 (jget fallback p.1) (jget out p.1))) = out by
      rw [h2]
    rw [← h]
    have h3 : shape.map (fun p =>
        (p.1, asMaybeVal p.2 (jget fallback p.1) (jget fallback p.1))) =
        shape.map (fun p => (p.1, jget fallback p.1)) := by
      apply List.map_congr_left
      intro p hp
      rw [asMaybeVal_self p.2 (jget fallback p.1) (hb p hp)]
    rw [h3]
    exact (fallback_as_shape_map shape fallback hnd hfb).symm

theorem idem_open_none (c : Cleaner)
    (hfix : ∀ x v, c x = .ok v → c v = .ok v) :
    ∀ raw out, (objKeys (fieldsOf raw)).Nodup →
      asMaybeObject c none raw = .ok (.obj out) →
      asMaybeObject c none (.obj out) = .ok (.obj out) := by
  intro raw out hnd h
  rcases hg : typeofStr raw != "object" || looseEqNull raw with hh | hh
  · rw [asMaybeObject_eq_filterMap_gen c none raw hg hnd] at h
    simp only [Except.ok.injEq, JSVal.obj.injEq] at h
    have hkeys : objKeys out =
        (enumKeys none (fieldsOf raw)).filter
          (fun k => (healAct c none (fieldsOf raw) k).isSome) := by
      rw [← h]
      exact objKeys_filterMap _ _
    have hnd2 : (objKeys out).Nodup := by
      rw [hkeys]
      exact List.Nodup.filter _ (nodup_enumKeys none (fieldsOf raw) hnd)
    rw [asMaybeObject_eq_filterMap c none out hnd2]
    suffices h2 : (enumKeys none out).filterMap
        (fun k => (healAct c none out k).map (fun v => (k, v))) = out by
      rw [h2]
    apply rebuild_assoc
    · exact hnd2
    · intro k hk
      rw [hkeys, List.mem_filter] at hk
      rcases hv : healAct c none (fieldsOf raw) k with _ | v
      · rw [hv] at hk
        exact absurd hk.2 (by simp)
      · have hlook : objLookup out k = some v := by
          rw [← h]
          rw [objLookup_filterMap_of_mem (fun k => healAct c none (fieldsOf raw) k)
            (enumKeys none (fieldsOf raw)) k
            (nodup_enumKeys none (fieldsOf raw) hnd) hk.1]
          exact hv
        have hjget : jget out k = v := by
          rw [jget_eq_objLookup, hlook]
          rfl
        have hcv : c (jget (fieldsOf raw) k) = .ok v :=
          healAct_none_some c (fieldsOf raw) k v hv
        have hnp : k ≠ "__proto__" := healAct_ne_proto c none (fieldsOf raw) k v hv
        rw [healAct_unusable c none out k hnp rfl, hjget, hfix _ v hcv]
  · rw [asMaybeObject_eq_cases, if_pos hg] at h
    simp only [Except.ok.injEq, JSVal.obj.injEq] at h
    rw [← h]
    rfl

theorem asMaybeArray_arr_some (c : Cleaner) (fb xs : List JSVal) :
    asMaybeArray c (some fb) (.arr xs) =
      .ok (.arr ((List.range (max xs.length fb.length)).filterMap
        (arrayStep c (some fb) xs))) := rfl

theorem idem_array_some (c : Cleaner) (fb : List JSVal)
    (hfix : ∀ x v, c x = .ok v → c v = .ok v)
    (hnn : ∀ f ∈ fb, looseEqNull f = false)
    (hb : ∀ f ∈ fb, c f = .ok f ∨ ∃ e, c f = .error e) :
    ∀ xs out, asMaybeArray c (some fb) (.arr xs) = .ok (.arr out) →
      asMaybeArray c (some fb) (.arr out) = .ok (.arr out) := by
  intro xs out h
  rw [asMaybeArray_arr_some] at h
  simp only [Except.ok.injEq, JSVal.arr.injEq] at h
  have husable : ∀ i, i < fb.length → looseEqNull (optIndex (some fb) i) = false :=
    fun i hi => hnn (fb.getD i .undef) (getD_mem fb i .undef hi)
  have hstep1 : ∀ i, i < fb.length → arrayStep c (some fb) xs i =
      some (asMaybeVal c (fb.getD i .undef) (xs.getD i .undef)) := by
    intro i hi
    rw [arrayStep_usable c (some fb) xs i (husable i hi)]
    rfl
  have hsplit : List.range (max xs.length fb.length) =
      List.range fb.length ++
        (List.range (max xs.length fb.length - fb.length)).map
          (fun j => fb.length + j) := by
    rw [← List.range_add]
    congr 1
    omega
  have hA : (List.range fb.length).filterMap (arrayStep c (some fb) xs) =
      (List.range fb.length).map
        (fun i => asMaybeVal c (fb.getD i .undef) (xs.getD i .undef)) :=
    filterMap_congr_some _ _ _ (fun i hi => hstep1 i (List.mem_range.1 hi))
  have hout : out = (List.range fb.length).map
      (fun i => asMaybeVal c (fb.getD i .undef) (xs.getD i .undef)) ++
      (List.range (max xs.length fb.length - fb.length)).filterMap
        (arrayStep c (some fb) xs ∘ fun j => fb.length + j) := by
    rw [← h, hsplit, List.filterMap_append, hA, List.filterMap_map]
  obtain ⟨B, houtB, hBok⟩ : ∃ B : List JSVal,
      out = (List.range fb.length).map
        (fun i => asMaybeVal c (fb.getD i .undef) (xs.getD i .undef)) ++ B ∧
      ∀ y ∈ B, c y = .ok y := by
    refine ⟨_, hout, ?_⟩
    intro y hy
    obtain ⟨j, hj, hstep⟩ := List.mem_filterMap.1 hy
    simp only [Function.comp_apply] at hstep
    have hge : fb.length ≤ fb.length + j := Nat.le_add_right _ _
    have hun : looseEqNull (optIndex (some fb) (fb.length + j)) = true := by
      rw [show optIndex (some fb) (fb.length + j) = JSVal.undef from
        List.getD_eq_default fb .undef hge]
      rfl
    rw [arrayStep_unusable c (some fb) xs (fb.length + j) hun] at hstep
    rcases hs : c (xs.getD (fb.length + j) .undef) with e | w <;> rw [hs] at hstep
    · exact Option.noConfusion hstep
    · rw [Option.some.injEq] at hstep
      subst hstep
      exact hfix _ _ hs
  have houtlen : out.length = fb.length + B.length := by
    rw [houtB, List.length_append, List.length_map, List.length_range]
  rw [asMaybeArray_arr_some]
  suffices h2 : (List.range (max out.length fb.length)).filterMap
      (arrayStep c (some fb) out) = out by
    rw [h2]
  rw [Nat.max_eq_left (by omega)]
  have hstep2 : ∀ i ∈ List.range out.length,
      arrayStep c (some fb) out i = some (out.getD i .undef) := by
    intro i hi
    have hi' : i < out.length := List.mem_range.1 hi
    by_cases hif : i < fb.length
    · rw [arrayStep_usable c (some fb) out i (husable i hif),
        show optIndex (some fb) i = fb.getD i JSVal.undef from rfl]
      have hgd : out.getD i .undef =
          asMaybeVal c (fb.getD i .undef) (xs.getD i .undef) := by
        rw [houtB, List.getD_append _ _ _ i
          (by rw [List.length_map, List.length_range]; exact hif)]
        exact getD_map_range fb.length i _ JSVal.undef hif
      rw [hgd, asMaybeVal_abs c (fb.getD i .undef) (xs.getD i .undef) hfix
        (hb _ (getD_mem fb i .undef hif))]
    · push_neg at hif
      have hun : looseEqNull (optIndex (some fb) i) = true := by
        rw [show optIndex (some fb) i = JSVal.undef from
          List.getD_eq_default fb .undef hif]
        rfl
      rw [arrayStep_unusable c (some fb) out i hun]
      have hmem : out.getD i .undef ∈ B := by
        rw [houtB, List.getD_append_right _ _ _ i
          (by rw [List.length_map, List.length_range]; exact hif)]
        apply getD_mem
        rw [List.length_map, List.length_range]
        omega
      rw [hBok _ hmem]
  rw [filterMap_congr_some _ _ _ hstep2, map_getD_range]

theorem idem_open_some (c : Cleaner) (fb : JSObj)
    (hfix : ∀ x v, c x = .ok v → c v = .ok v)
    (hfbnd : (objKeys fb).Nodup)
    (hnn : ∀ p ∈ fb, looseEqNull p.2 = false)
    (hb : ∀ p ∈ fb, c p.2 = .ok p.2 ∨ ∃ e, c p.2 = .error e) :
    ∀ raw out, (objKeys (fieldsOf raw)).Nodup →
      (typeofStr raw != "object" || looseEqNull raw) = false →
      asMaybeObject c (some fb) raw = .ok (.obj out) →
      asMaybeObject c (some fb) (.obj out) = .ok (.obj out) := by
  intro raw out hnd hg h
  rw [asMaybeObject_eq_filterMap_gen c (some fb) raw hg hnd] at h
  simp only [Except.ok.injEq, JSVal.obj.injEq] at h
  have hK1nd : (enumKeys (some fb) (fieldsOf raw)).Nodup :=
    nodup_enumKeys (some fb) (fieldsOf raw) hnd
  have hkeysout : objKeys out =
      (enumKeys (some fb) (fieldsOf raw)).filter
        (fun k => (healAct c (some fb) (fieldsOf raw) k).isSome) := by
    rw [← h]
    exact objKeys_filterMap _ _
  have hndout : (objKeys out).Nodup := by
    rw [hkeysout]
    exact List.Nodup.filter _ hK1nd
  have husable_of_memfb : ∀ k ∈ objKeys fb,
      looseEqNull (optGet (some fb) k) = false :=
    fun k hk => hnn (k, jget fb k) (jget_mem fb k hk)
  have hmem_fbkeys_of_usable : ∀ k,
      looseEqNull (optGet (some fb) k) = false → k ∈ objKeys fb := by
    intro k hk
    apply mem_objKeys_of_jget_ne_undef
    intro he
    rw [show optGet (some fb) k = jget fb k from rfl, he] at hk
    exact Bool.noConfusion hk
  have hfb_sub : ∀ k ∈ objKeys fb, k ≠ "__proto__" → k ∈ objKeys out := by
    intro k hk hnp
    rw [hkeysout, List.mem_filter]
    constructor
    · rw [show enumKeys (some fb) (fieldsOf raw) =
        objKeys (spread (fieldsOf raw) fb) from rfl,
        objKeys_spread fb (fieldsOf raw) hfbnd]
      by_cases hmem : k ∈ objKeys (fieldsOf raw)
      · exact List.mem_append.2 (Or.inl hmem)
      · refine List.mem_append.2 (Or.inr ?_)
        rw [List.mem_filter]
        exact ⟨hk, by simp [hmem]⟩
    · rw [healAct_usable c (some fb) (fieldsOf raw) k hnp (husable_of_memfb k hk)]
      rfl
  have hval : ∀ k ∈ objKeys out, ∃ v,
      healAct c (some fb) (fieldsOf raw) k = some v ∧ jget out k = v := by
    intro k hk
    rw [hkeysout, List.mem_filter] at hk
    rcases hv : healAct c (some fb) (fieldsOf raw) k with _ | v
    · rw [hv] at hk
      exact absurd hk.2 (by simp)
    · refine ⟨v, rfl, ?_⟩
      have hlook : objLookup out k = some v := by
        rw [← h, objLookup_filterMap_of_mem
          (fun k => healAct c (some fb) (fieldsOf raw) k)
          (enumKeys (some fb) (fieldsOf raw)) k hK1nd hk.1]
        exact hv
      rw [jget_eq_objLookup, hlook]
      rfl
  have hact2 : ∀ k ∈ objKeys out,
      healAct c (some fb) out k = some (jget out k) := by
    intro k hk
    obtain ⟨v, hv, hjv⟩ := hval k hk
    have hnp : k ≠ "__proto__" :=
      healAct_ne_proto c (some fb) (fieldsOf raw) k v hv
    by_cases hu : looseEqNull (optGet (some fb) k) = true
    · have hcv := healAct_unusable_some c (some fb) (fieldsOf raw) k v hnp hu hv
      rw [healAct_unusable c (some fb) out k hnp hu, hjv, hfix _ v hcv]
    · simp only [Bool.not_eq_true] at hu
      rw [healAct_usable c (some fb) (fieldsOf raw) k hnp hu,
        Option.some.injEq] at hv
      rw [healAct_usable c (some fb) out k hnp hu, hjv, ← hv]
      rw [asMaybeVal_abs c (optGet (some fb) k) (jget (fieldsOf raw) k) hfix
        (hb (k, jget fb k) (jget_mem fb k (hmem_fbkeys_of_usable k hu)))]
  rw [asMaybeObject_eq_filterMap c (some fb) out hndout]
  suffices h2 : (enumKeys (some fb) out).filterMap
      (fun k => (healAct c (some fb) out k).map (fun v => (k, v))) = out by
    rw [h2]
  rw [show enumKeys (some fb) out = objKeys (spread out fb) from rfl,
    objKeys_spread fb out hfbnd, List.filterMap_append]
  have hmain : (objKeys out).filterMap
      (fun k => (healAct c (some fb) out k).map (fun v => (k, v))) = out :=
    rebuild_assoc _ out hndout hact2
  have hextra : ((objKeys fb).filter
      (fun k => !(decide (k ∈ objKeys out)))).filterMap
        (fun k => (healAct c (some fb) out k).map (fun v => (k, v))) = [] := by
    rw [List.filterMap_eq_nil_iff]
    intro k hk
    rw [List.mem_filter] at hk
    have hknotout : k ∉ objKeys out := by
      have := hk.2
      simpa using this
    rcases hv : healAct c (some fb) out k with _ | v
    · rfl
    · exfalso
      exact hknotout (hfb_sub k hk.1 (healAct_ne_proto c (some fb) out k v hv))
  rw [hmain, hextra, List.append_nil]

/-- C7 counterexample: idempotence fails as stated. `asNumber`-style
cleaner `asNumT` fixes its own outputs, yet
`asHealingArray(asNumT, [null, 5])` maps `['x']` to `[5]` and maps `[5]`
to `[5, 5]`: the compaction of pass one misaligns the fallback indices of
pass two, so applying the built cleaner to its own output changes it. -/
theorem c7_counterexample :
    ¬ (∀ (c : Cleaner) (fb : List JSVal) (raw out : JSVal),
        (∀ x v, c x = .ok v → c v = .ok v) →
        asMaybeArray c (some fb) raw = .ok out →
        asMaybeArray c (some fb) out = .ok out) := by
  intro hclaim
  have h1 : asMaybeArray asNumT (some [JSVal.null, JSVal.num 5])
      (.arr [.str "x"]) = .ok (.arr [.num 5]) := rfl
  have h2 := hclaim asNumT [JSVal.null, JSVal.num 5] (.arr [.str "x"])
    (.arr [.num 5]) asNumT_fix h1
  have h3 : asMaybeArray asNumT (some [JSVal.null, JSVal.num 5])
      (.arr [.num 5]) = .ok (.arr [.num 5, .num 5]) := rfl
  rw [h3] at h2
  simp at h2

/-- C7 (amended): idempotence of the healing combinators, with the
hypotheses the counterexample forces.  Given an element cleaner that fixes
its own outputs: (1) the open object healer without fallback and (3) the
array healer without fallback are idempotent on all inputs; (2) the open
object healer with a fallback map is idempotent on object-kind inputs when
every fallback entry is non-nullish and cleaner-fixed-or-rejected; (4) the
array healer with a fallback list likewise on array inputs; (5) the tuple
healer is idempotent on all inputs when every template entry is
cleaner-fixed-or-rejected; (6) the closed shape healer is idempotent when
each field cleaner fixes its own outputs, each fallback field value is
fixed-or-rejected by its field cleaner, and the fallback record has the
shape's keys in the shape's order. -/
theorem c7_amended_idempotence (c : Cleaner)
    (hfix : ∀ x v, c x = .ok v → c v = .ok v) :
    (∀ raw out, (objKeys (fieldsOf raw)).Nodup →
      asMaybeObject c none raw = .ok (.obj out) →
      asMaybeObject c none (.obj out) = .ok (.obj out)) ∧
    (∀ fb raw out, (objKeys fb).Nodup →
      (∀ p ∈ fb, looseEqNull p.2 = false) →
      (∀ p ∈ fb, c p.2 = .ok p.2 ∨ ∃ e, c p.2 = .error e) →
      (objKeys (fieldsOf raw)).Nodup →
      (typeofStr raw != "object" || looseEqNull raw) = false →
      asMaybeObject c (some fb) raw = .ok (.obj out) →
      asMaybeObject c (some fb) (.obj out) = .ok (.obj out)) ∧
    (∀ raw out, asMaybeArray c none raw = .ok (.arr out) →
      asMaybeArray c none (.arr out) = .ok (.arr out)) ∧
    (∀ fb xs out, (∀ f ∈ fb, looseEqNull f = false) →
      (∀ f ∈ fb, c f = .ok f ∨ ∃ e, c f = .error e) →
      asMaybeArray c (some fb) (.arr xs) = .ok (.arr out) →
      asMaybeArray c (some fb) (.arr out) = .ok (.arr out)) ∧
    (∀ fb raw out, (∀ f ∈ fb, c f = .ok f ∨ ∃ e, c f = .error e) →
      asMaybeTuple c fb raw = .ok (.arr out) →
      asMaybeTuple c fb (.arr out) = .ok (.arr out)) ∧
    (∀ (shape : List (String × Cleaner)) (fallback : JSObj) raw out,
      (shape.map Prod.fst).Nodup →
      objKeys fallback = shape.map Prod.fst →
      (∀ p ∈ shape, ∀ x v, p.2 x = .ok v → p.2 v = .ok v) →
      (∀ p ∈ shape, p.2 (jget fallback p.1) = .ok (jget fallback p.1) ∨
        ∃ e, p.2 (jget fallback p.1) = .error e) →
      asHealingObjectShape shape fallback raw = .ok (.obj out) →
      asHealingObjectShape shape fallback (.obj out) = .ok (.obj out)) :=
  ⟨fun raw out hnd h => idem_open_none c hfix raw out hnd h,
   fun fb raw out hfbnd hnn hb hnd hg h =>
     idem_open_some c fb hfix hfbnd hnn hb raw out hnd hg h,
   fun raw out h => idem_array_none c hfix raw out h,
   fun fb xs out hnn hb h => idem_array_some c fb hfix hnn hb xs out h,
   fun fb raw out hb h => idem_tuple c fb hfix hb raw out h,
   fun shape fallback raw out hnd hfb hfixs hb h =>
     idem_closed shape fallback hnd hfb hfixs hb raw out h⟩

/-- C7 witness: the tuple healer with template `[5]` heals the bad input
`['x']` to `[5]`, and re-healing `[5]` leaves it unchanged. -/
theorem c7_witness :
    asMaybeTuple asNumT [JSVal.num 5] (.arr [JSVal.str "x"]) =
      .ok (.arr [JSVal.num 5]) ∧
    asMaybeTuple asNumT [JSVal.num 5] (.arr [JSVal.num 5]) =
      .ok (.arr [JSVal.num 5]) :=
  ⟨rfl,
   (c7_amended_idempotence asNumT asNumT_fix).2.2.2.2.1 [JSVal.num 5]
     (.arr [JSVal.str "x"]) [JSVal.num 5]
     (by
       intro f hf
       rw [List.mem_singleton] at hf
       subst hf
       exact Or.inl rfl) rfl⟩
